import Mathlib

/-!
Verification of the deobfuscation core of the Enuma repository
(src/src/api.rs).  The decoding functions are embedded shallowly:

* Rust machine integers are modelled as Nat with explicit reduction
  modulo the word size where overflow can occur (u128, usize = u64) and
  as Int with explicit two-complement wrapping for the i128 casts, which
  matches release-profile wrapping semantics.
* Fallible Rust code returning anyhow Result is modelled by the
  RustOutcome type below; an out-of-bounds slice index, which aborts the
  program, is modelled by the distinguished outcome "panicked".
* The regex scans that locate an obfuscated invocation inside a page
  (eval_re at api.rs:174 and packer_re at api.rs:153) are abstracted
  into the page model: a page carries the captured parameters of the
  custom-cipher invocation, when one matches, and the list of packer
  invocations in document order.  The simpler regexes (extract_m3u8 at
  api.rs:213, the url assignment at api.rs:124 and the literal fallback
  at api.rs:136) are embedded directly as character-list scanners with
  the leftmost-first greedy semantics of the regex crate; the character
  classes of the scanned patterns are modelled at ASCII, where the
  Unicode classes of the regex crate coincide with the ASCII ones.
-/

/-- Outcome of running a fallible Rust function: a value, an error
carried by the anyhow Result, or an aborting panic. -/
inductive RustOutcome (α : Type) where
  | ok : α → RustOutcome α
  | err : String → RustOutcome α
  | panicked : RustOutcome α
deriving DecidableEq

/-- Message of the ParseIntError raised when a digit-only capture does
not fit the target integer type (api.rs:157, 179, 180). -/
def parseIntMsg : String := "number too large to fit in target type"

/-- Captures of eval_re (api.rs:174) for one custom-cipher invocation:
the ciphertext, the charset, and the numeric values of the digit-only
offset and radix captures. -/
structure CipherInvocation where
  cipher : List Char
  charset : List Char
  offsetN : Nat
  radixN : Nat
deriving DecidableEq

/-- Word size of the decimal accumulator in unpack_custom_kwik
(u128, api.rs:191). -/
def U128 : Nat := 2 ^ 128

/-- Word size of the value accumulator in unpack_dean_edwards
(usize on a 64-bit target, api.rs:223). -/
def U64 : Nat := 2 ^ 64

/-- Index of the first occurrence of a character in a list, as computed
by Iterator::position at api.rs:193 and str::find at api.rs:226. -/
def firstPos : List Char → Char → Option Nat
  | [], _ => none
  | x :: xs, c => if x = c then some 0 else (firstPos xs c).map (· + 1)

/-- str::split on a one-character separator (api.rs:186): yields the
possibly empty pieces between occurrences of the separator. -/
def splitOnChar (sep : Char) : List Char → List (List Char)
  | [] => [[]]
  | c :: cs =>
    if c = sep then [] :: splitOnChar sep cs
    else
      match splitOnChar sep cs with
      | [] => [[c]]
      | s :: rest => (c :: s) :: rest

/-- The digit-accumulation loop of api.rs:191-196: fold the characters
of a segment, adding a base-radix digit for each character found in the
charset (first-occurrence index) and skipping absent characters, in
wrapping u128 arithmetic. -/
def segValU128 (charset : List Char) (radix : Nat) (seg : List Char) : Nat :=
  seg.foldl (fun v c =>
    match firstPos charset c with
    | some p => (v * radix + p) % U128
    | none => v) 0

/-- The cast (decimal as i128) at api.rs:198: reinterpret a u128 value
as a signed two-complement i128. -/
def i128OfU128 (n : Nat) : Int := if n < 2 ^ 127 then (n : Int) else (n : Int) - 2 ^ 128

/-- Wrapping of a mathematical integer into the i128 range, the
release-profile semantics of i128 subtraction at api.rs:198. -/
def i128Wrap (x : Int) : Int := (x + 2 ^ 127) % 2 ^ 128 - 2 ^ 127

/-- The segment loop of api.rs:185-202: split the ciphertext on the
separator, skip empty segments, accumulate each segment value in u128,
subtract the offset in i128, and push the result as a byte when it lies
in 0..=255. -/
def kwikDecodeBytes (charset : List Char) (radix offset : Nat) (cipher : List Char)
    (sep : Char) : List Nat :=
  (splitOnChar sep cipher).foldl (fun acc seg =>
    if seg.isEmpty then acc
    else
      let code := i128Wrap (i128OfU128 (segValU128 charset radix seg) - (offset : Int))
      if 0 ≤ code ∧ code ≤ 255 then acc ++ [code.toNat] else acc) []

/-- The replacement character U+FFFD pushed by String::from_utf8_lossy
for each invalid sequence. -/
def repChar : Char := Char.ofNat 0xFFFD

/-- A UTF-8 continuation byte. -/
def utf8Cont (b : Nat) : Prop := 0x80 ≤ b ∧ b ≤ 0xBF

instance (b : Nat) : Decidable (utf8Cont b) := by unfold utf8Cont; infer_instance

/-- One decoding step of String::from_utf8_lossy on a lead byte and the
remaining bytes: the character to emit (the decoded scalar or U+FFFD
for the maximal invalid subpart, following the error_len semantics of
core::str::Utf8Error) and how many bytes beyond the lead are consumed. -/
def utf8Step (b : Nat) (rest : List Nat) : Char × Nat :=
  if b < 0x80 then (Char.ofNat b, 0)
  else if b < 0xC2 then (repChar, 0)
  else if b ≤ 0xDF then
    match rest with
    | [] => (repChar, 0)
    | c1 :: _ =>
      if utf8Cont c1 then (Char.ofNat ((b % 0x20) * 0x40 + c1 % 0x40), 1)
      else (repChar, 0)
  else if b ≤ 0xEF then
    match rest with
    | [] => (repChar, 0)
    | c1 :: r1 =>
      if (if b = 0xE0 then (0xA0 : Nat) else 0x80) ≤ c1 ∧
          c1 ≤ (if b = 0xED then (0x9F : Nat) else 0xBF) then
        match r1 with
        | [] => (repChar, 1)
        | c2 :: _ =>
          if utf8Cont c2 then
            (Char.ofNat ((b % 0x10) * 0x1000 + (c1 % 0x40) * 0x40 + c2 % 0x40), 2)
          else (repChar, 1)
      else (repChar, 0)
  else if b ≤ 0xF4 then
    match rest with
    | [] => (repChar, 0)
    | c1 :: r1 =>
      if (if b = 0xF0 then (0x90 : Nat) else 0x80) ≤ c1 ∧
          c1 ≤ (if b = 0xF4 then (0x8F : Nat) else 0xBF) then
        match r1 with
        | [] => (repChar, 1)
        | c2 :: r2 =>
          if utf8Cont c2 then
            match r2 with
            | [] => (repChar, 2)
            | c3 :: _ =>
              if utf8Cont c3 then
                (Char.ofNat ((b % 8) * 0x40000 + (c1 % 0x40) * 0x1000 +
                    (c2 % 0x40) * 0x40 + c3 % 0x40), 3)
              else (repChar, 2)
          else (repChar, 1)
      else (repChar, 0)
  else (repChar, 0)

/-- Decoding loop of String::from_utf8_lossy with explicit fuel; every
step consumes at least one byte, so fuel equal to the byte count makes
it total while keeping the recursion structural and kernel-evaluable. -/
def utf8LossyDecodeAux : Nat → List Nat → List Char
  | 0, _ => []
  | _ + 1, [] => []
  | fuel + 1, b :: rest =>
    (utf8Step b rest).1 :: utf8LossyDecodeAux fuel (rest.drop (utf8Step b rest).2)

/-- String::from_utf8_lossy (api.rs:204): decode a byte list as UTF-8,
replacing each maximal invalid subpart with U+FFFD. -/
def utf8LossyDecode (l : List Nat) : List Char := utf8LossyDecodeAux l.length l

/-- unpack_custom_kwik (api.rs:171-210) on the result of the eval_re
scan: none models a page with no matching invocation (Ok(None) in the
source); on a match, offset is parsed as i64 and radix as u32 (errors
propagated by the question-mark operator), the separator is looked up
by indexing charset_chars with radix (an out-of-bounds index panics),
and the decoded bytes are returned through from_utf8_lossy. -/
def unpack_custom_kwik : Option CipherInvocation → RustOutcome (Option (List Char))
  | none => .ok none
  | some inv =>
    if 2 ^ 63 ≤ inv.offsetN then .err parseIntMsg
    else if 2 ^ 32 ≤ inv.radixN then .err parseIntMsg
    else if inv.radixN < inv.charset.length then
      .ok (some (utf8LossyDecode
        (kwikDecodeBytes inv.charset inv.radixN inv.offsetN inv.cipher
          (inv.charset.getD inv.radixN (Char.ofNat 0)))))
    else .panicked

/-- The single-quote character, excluded by the character classes of
the scanned patterns. -/
def quoteS : Char := Char.ofNat 39

/-- The double-quote character. -/
def quoteD : Char := Char.ofNat 34

/-- A character matched by the quote-excluding class of the stream-URL
regex (api.rs:213) is one that is not a quote; this tests for a quote. -/
def isQuoteCh (c : Char) : Bool := c = quoteS || c = quoteD

/-- The literal suffix of the stream-URL pattern. -/
def m3u8Tail : List Char := ['.', 'm', '3', 'u', '8']

/-- Greedy match of the one-or-more-non-quote-then-suffix part of the
stream-URL regex at the head of the text: the longest n such that the
first n characters are a nonempty quote-free run followed by the
literal suffix .m3u8. -/
def tailMatchLen : List Char → Option Nat
  | [] => none
  | c :: cs =>
    if isQuoteCh c then none
    else
      match tailMatchLen cs with
      | some n => some (n + 1)
      | none => if m3u8Tail.isPrefixOf cs then some 6 else none

/-- Match of the scheme part of the stream-URL regex at the head of the
text, preferring the s branch as the regex engine does. -/
def httpLen (cs : List Char) : Option Nat :=
  if List.isPrefixOf "https://".data cs then some 8
  else if List.isPrefixOf "http://".data cs then some 7
  else none

/-- Full match of the stream-URL regex at the head of the text,
returning the match length. -/
def m3u8MatchAt (cs : List Char) : Option Nat :=
  match httpLen cs with
  | some s =>
    match tailMatchLen (cs.drop s) with
    | some n => some (s + n)
    | none => none
  | none => none

/-- extract_m3u8 (api.rs:212-215): leftmost match of the stream-URL
regex over the text, returned verbatim; None when nothing matches. -/
def extract_m3u8 : List Char → Option (List Char)
  | [] => none
  | c :: cs =>
    match m3u8MatchAt (c :: cs) with
    | some n => some (List.take n (c :: cs))
    | none => extract_m3u8 cs

/-- Declarative description of a string the stream-URL regex matches in
full: an http or https scheme, at least one character between the
scheme and the suffix, the literal suffix .m3u8, and no quote
character anywhere. -/
def specM3u8 (u : List Char) : Prop :=
  ((List.take 7 u = "http://".data ∧ 13 ≤ u.length) ∨
    (List.take 8 u = "https://".data ∧ 14 ≤ u.length)) ∧
  m3u8Tail <:+ u ∧ ∀ c ∈ u, isQuoteCh c = false

instance (u : List Char) : Decidable (specM3u8 u) := by unfold specM3u8; infer_instance

/-- ASCII white space, the subset of the white-space class relevant to
the scanned pages. -/
def isWsCh (c : Char) : Bool :=
  c = ' ' || c = Char.ofNat 9 || c = Char.ofNat 10 || c = Char.ofNat 13 ||
    c = Char.ofNat 11 || c = Char.ofNat 12

/-- Match of the embed-path assignment pattern of api.rs:124 at the
head of the text: the keyword var, white space, url, optional white
space around the equals sign, then a single-quoted path beginning with
/e/; returns the captured path. -/
def varUrlAt (cs : List Char) : Option (List Char) :=
  if List.isPrefixOf "var".data cs then
    let r1 := cs.drop 3
    if (r1.takeWhile isWsCh).isEmpty then none
    else
      let r2 := r1.dropWhile isWsCh
      if List.isPrefixOf "url".data r2 then
        match (r2.drop 3).dropWhile isWsCh with
        | '=' :: r4 =>
          match r4.dropWhile isWsCh with
          | q :: r6 =>
            if q = quoteS ∧ List.isPrefixOf "/e/".data r6 then
              let body := (r6.drop 3).takeWhile (fun c => c ≠ quoteS)
              if body.isEmpty then none
              else if ((r6.drop 3).dropWhile (fun c => c ≠ quoteS)).isEmpty then none
              else some ("/e/".data ++ body)
            else none
          | [] => none
        | _ => none
      else none
  else none

/-- Leftmost match of the embed-path assignment pattern (api.rs:124). -/
def findVarUrl : List Char → Option (List Char)
  | [] => none
  | c :: cs =>
    match varUrlAt (c :: cs) with
    | some p => some p
    | none => findVarUrl cs

/-- The fixed origin stripped at api.rs:138. -/
def kwikOrigin : List Char := "https://kwik.cx".data

/-- The literal part of the fallback URL pattern at api.rs:136. -/
def kwikEPat : List Char := "https://kwik.cx/e/".data

/-- A character of the slug class of the fallback URL pattern. -/
def isSlugCh (c : Char) : Bool := c.isAlpha || c.isDigit

/-- Match of the fallback literal URL pattern of api.rs:136 at the head
of the text. -/
def kwikEAt (cs : List Char) : Option (List Char) :=
  if kwikEPat.isPrefixOf cs then
    let run := (cs.drop 18).takeWhile isSlugCh
    if run.isEmpty then none else some (kwikEPat ++ run)
  else none

/-- Leftmost match of the fallback literal URL pattern (api.rs:137). -/
def findKwikE : List Char → Option (List Char)
  | [] => none
  | c :: cs =>
    match kwikEAt (c :: cs) with
    | some m => some m
    | none => findKwikE cs

/-- Scanning loop of str::replace with explicit fuel; every step
consumes at least one character, so fuel equal to the text length makes
it total while keeping the recursion structural and kernel-evaluable. -/
def replaceOriginAux : Nat → List Char → List Char
  | 0, _ => []
  | _ + 1, [] => []
  | fuel + 1, c :: cs =>
    if kwikOrigin.isPrefixOf (c :: cs) then replaceOriginAux fuel (cs.drop 14)
    else c :: replaceOriginAux fuel cs

/-- str::replace of every occurrence of the fixed origin with the empty
string (api.rs:138), scanning left to right without overlap. -/
def replaceOrigin (l : List Char) : List Char := replaceOriginAux l.length l

/-- The fixed base-62 alphabet of unpack_dean_edwards (api.rs:218). -/
def packerChars : List Char :=
  "0123456789abcdefghijklmnopqrstuvwxyzABCDEFGHIJKLMNOPQRSTUVWXYZ".data

/-- A word character of the token pattern at api.rs:219, at ASCII. -/
def isWordChar (c : Char) : Bool := c.isAlpha || c.isDigit || c = '_'

/-- The digit loop of api.rs:223-233: accumulate the value of a token
in wrapping usize arithmetic, failing (valid = false in the source) at
the first character that is absent from the alphabet or whose position
is not below the base. -/
def deanTokenVal (base : Nat) : List Char → Nat → Option Nat
  | [], v => some v
  | c :: cs, v =>
    match firstPos packerChars c with
    | some p => if base ≤ p then none else deanTokenVal base cs ((v * base + p) % U64)
    | none => none

/-- The replacement decision of api.rs:234-238 for one token. -/
def deanReplaceToken (base : Nat) (keywords : List (List Char)) (tok : List Char) :
    List Char :=
  match deanTokenVal base tok 0 with
  | some v =>
    if h : v < keywords.length then
      if (keywords.get ⟨v, h⟩).isEmpty then tok else keywords.get ⟨v, h⟩
    else tok
  | none => tok

/-- Token-scanning loop with explicit fuel; every step consumes at
least one character, so fuel equal to the text length makes it total
while keeping the recursion structural and kernel-evaluable. -/
def tokenScanAux (f : List Char → List Char) : Nat → List Char → List Char
  | 0, _ => []
  | _ + 1, [] => []
  | fuel + 1, c :: cs =>
    if isWordChar c then
      f ((c :: cs).takeWhile isWordChar) ++
        tokenScanAux f fuel ((c :: cs).dropWhile isWordChar)
    else c :: tokenScanAux f fuel cs

/-- Regex::replace_all with the word-token pattern of api.rs:219: scan
the text, apply the replacement function to each maximal run of word
characters, and copy every other character through unchanged. -/
def tokenScan (f : List Char → List Char) (l : List Char) : List Char :=
  tokenScanAux f l.length l

/-- unpack_dean_edwards (api.rs:217-241). -/
def unpack_dean_edwards (packed : List Char) (base : Nat)
    (keywords : List (List Char)) : List Char :=
  tokenScan (deanReplaceToken base keywords) packed

/-- Exact base-base value of a token per the claim wording, counting
every alphabet character at its first-occurrence position. -/
def deanExactVal (base : Nat) (tok : List Char) : Nat :=
  tok.foldl (fun v c => v * base + (firstPos packerChars c).getD 0) 0

/-- A token is a valid numeral when every character occurs in the fixed
alphabet at a position strictly below the base (claim C4 wording). -/
def deanValidTok (base : Nat) (tok : List Char) : Bool :=
  tok.all (fun c =>
    match firstPos packerChars c with
    | some p => decide (p < base)
    | none => false)

/-- Spec-side replacement rule for one token: substitute the dictionary
entry exactly when the token is a valid numeral, its value reduced to
the word size indexes the dictionary, and the entry is nonempty. -/
def deanSpecToken (base : Nat) (keywords : List (List Char)) (tok : List Char) :
    List Char :=
  if deanValidTok base tok ∧ deanExactVal base tok % U64 < keywords.length ∧
      keywords.getD (deanExactVal base tok % U64) [] ≠ [] then
    keywords.getD (deanExactVal base tok % U64) []
  else tok

/-- Spec-side description of the whole packer decode. -/
def deanSpec (packed : List Char) (base : Nat) (keywords : List (List Char)) :
    List Char :=
  tokenScan (deanSpecToken base keywords) packed

/-- Captures of packer_re (api.rs:153) for one generic-packer
invocation: the packed source, the numeric value of the digit-only base
capture, the undivided dictionary string and the one-character
separator it is split on. -/
structure PackerInvocation where
  packed : List Char
  baseN : Nat
  keywordsStr : List Char
  sep : Char
deriving DecidableEq

/-- Keyword dictionary of one invocation (api.rs:160). -/
def PackerInvocation.keywords (inv : PackerInvocation) : List (List Char) :=
  splitOnChar inv.sep inv.keywordsStr

/-- Decoded text of one packer invocation (api.rs:162). -/
def deanDecodeInv (inv : PackerInvocation) : List Char :=
  unpack_dean_edwards inv.packed inv.baseN inv.keywords

/-- An embed page as seen by decode_kwik_embed_page: the custom-cipher
match, if any, and the generic-packer matches in document order. -/
structure EmbedPage where
  custom : Option CipherInvocation
  packers : List PackerInvocation
deriving DecidableEq

/-- The bail message of api.rs:168. -/
def embedFailMsg : String := "Could not find m3u8 URL in kwik embed page"

/-- The captures_iter loop of api.rs:155-167: for each invocation in
document order, parse the base as usize, decode, and return the first
stream URL the extractor finds in a decoded text; bail when the list is
exhausted. -/
def packerLoop : List PackerInvocation → RustOutcome (List Char)
  | [] => .err embedFailMsg
  | inv :: rest =>
    if 2 ^ 64 ≤ inv.baseN then .err parseIntMsg
    else
      match extract_m3u8 (deanDecodeInv inv) with
      | some u => .ok u
      | none => packerLoop rest

/-- decode_kwik_embed_page (api.rs:144-169). -/
def decode_kwik_embed_page (p : EmbedPage) : RustOutcome (List Char) :=
  match unpack_custom_kwik p.custom with
  | .panicked => .panicked
  | .err e => .err e
  | .ok (some d) =>
    match extract_m3u8 d with
    | some u => .ok u
    | none => packerLoop p.packers
  | .ok none => packerLoop p.packers

/-- An entry page as seen by decode_kwik_f_page: the custom-cipher
match, if any, and the raw page text scanned by the fallback regex. -/
structure FPage where
  custom : Option CipherInvocation
  html : List Char
deriving DecidableEq

/-- The bail message of api.rs:141. -/
def fPageFailMsg : String := "Could not find embed URL in kwik /f/ page"

/-- The fallback search of api.rs:136-141: find the literal embed URL
in the raw page text and strip the origin. -/
def fPageFallback (html : List Char) : RustOutcome (List Char) :=
  match findKwikE html with
  | some m => .ok (replaceOrigin m)
  | none => .err fPageFailMsg

/-- decode_kwik_f_page (api.rs:121-142). -/
def decode_kwik_f_page (p : FPage) : RustOutcome (List Char) :=
  match unpack_custom_kwik p.custom with
  | .panicked => .panicked
  | .err e => .err e
  | .ok (some d) =>
    match findVarUrl d with
    | some path => .ok path
    | none =>
      match extract_m3u8 d with
      | some u => .ok u
      | none => fPageFallback p.html
  | .ok none => fPageFallback p.html

/-- Construction of the embed page URL from the decoded embed path
(api.rs:112). -/
def embed_page_url (embedUrl : List Char) : List Char :=
  "https://kwik.cx".data ++ embedUrl

/-- Exact (arbitrary-precision) counterpart of the segment
accumulation, for comparison with the wrapping u128 fold. -/
def segValExact (charset : List Char) (radix : Nat) (seg : List Char) : Nat :=
  seg.foldl (fun v c =>
    match firstPos charset c with
    | some p => v * radix + p
    | none => v) 0

/-- The byte list described by the claim for one matched invocation:
split on the separator, skip empty segments, take each segment value,
subtract the offset, and keep the result when it lies in 0..=255. -/
def customSpecBytes (charset : List Char) (radix offset : Nat) (cipher : List Char)
    (sep : Char) : List Nat :=
  ((splitOnChar sep cipher).filter (fun s => !s.isEmpty)).filterMap (fun seg =>
    let x : Int := (segValU128 charset radix seg : Int) - (offset : Int)
    if 0 ≤ x ∧ x ≤ 255 then some x.toNat else none)

/-- Big-endian base-r digits of a number, with explicit fuel so that
the recursion is structural and kernel-evaluable. -/
def digitsBEAux (r : Nat) : Nat → Nat → List Nat
  | 0, _ => []
  | fuel + 1, n => if n = 0 then [] else digitsBEAux r fuel (n / r) ++ [n % r]

/-- Big-endian base-r digits, with a single zero digit for zero. -/
def digitsBE (r n : Nat) : List Nat := if n = 0 then [0] else digitsBEAux r n n

/-- Modelled from the spec: the forward scheme of the cipher (spec
section 8), which is not part of the repository code — write one byte,
shifted by the offset, as a base-radix numeral over the charset. -/
def encodeByte (charset : List Char) (radix offset : Nat) (b : Nat) : List Char :=
  (digitsBE radix (b + offset)).map (fun d => charset.getD d (Char.ofNat 0))

/-- Join a list of segments with a single separator character between
consecutive segments. -/
def joinSep (sep : Char) : List (List Char) → List Char
  | [] => []
  | [s] => s
  | s :: rest => s ++ sep :: joinSep sep rest

/-- Modelled from the spec: the forward scheme of the cipher (spec
section 8) — per-byte numerals joined with the separator character at
index radix of the charset. -/
def kwikEncode (charset : List Char) (radix offset : Nat) (bytes : List Nat) :
    List Char :=
  joinSep (charset.getD radix (Char.ofNat 0))
    (bytes.map (encodeByte charset radix offset))

/-- Claim C1: the claim asserts that a matched invocation whose radix is
at least the charset length yields a MalformedCipherParameters-style
error and never panics; evaluating the embedded decoder at such an
input shows that the separator lookup at api.rs:183 is performed out of
bounds and the program panics instead. -/
theorem C1_radix_out_of_bounds_panics :
    unpack_custom_kwik
      (some { cipher := "x".data, charset := "ab".data, offsetN := 0, radixN := 5 }) =
      .panicked := by decide

theorem packerLoop_err_all (ps : List PackerInvocation)
    (hloop : packerLoop ps = .err embedFailMsg) :
    ∀ inv ∈ ps, inv.baseN < 2 ^ 64 ∧ extract_m3u8 (deanDecodeInv inv) = none := by
  induction ps with
  | nil => intro inv h; simp at h
  | cons a rest ih =>
    intro inv hmem
    by_cases hb : 2 ^ 64 ≤ a.baseN
    · rw [packerLoop, if_pos hb] at hloop
      have : parseIntMsg = embedFailMsg := by injection hloop
      exact absurd this (by decide)
    · rw [packerLoop, if_neg hb] at hloop
      cases hex : extract_m3u8 (deanDecodeInv a) with
      | some u => rw [hex] at hloop; exact absurd hloop (by simp)
      | none =>
        rw [hex] at hloop
        rcases List.mem_cons.mp hmem with h | h
        · exact h ▸ ⟨Nat.lt_of_not_le hb, hex⟩
        · exact ih hloop inv h

theorem segValU128_lt (charset : List Char) (radix : Nat) (seg : List Char) :
    segValU128 charset radix seg < U128 := by
  unfold segValU128
  have : ∀ (l : List Char) (v : Nat), v < U128 →
      l.foldl (fun v c =>
        match firstPos charset c with
        | some p => (v * radix + p) % U128
        | none => v) v < U128 := by
    intro l
    induction l with
    | nil => intro v hv; simpa using hv
    | cons c cs ih =>
      intro v hv
      simp only [List.foldl_cons]
      cases firstPos charset c with
      | some p => exact ih _ (Nat.mod_lt _ (by unfold U128; positivity))
      | none => exact ih _ hv
  exact this seg 0 (by unfold U128; positivity)

set_option maxRecDepth 4000 in
theorem i128_code_spec (v offset : Nat) (hv : v < 2 ^ 128) (hoff : offset < 2 ^ 63) :
    ((0 ≤ i128Wrap (i128OfU128 v - (offset : Int)) ∧
        i128Wrap (i128OfU128 v - (offset : Int)) ≤ 255) ↔
      (0 ≤ (v : Int) - (offset : Int) ∧ (v : Int) - (offset : Int) ≤ 255)) ∧
    (0 ≤ (v : Int) - (offset : Int) → (v : Int) - (offset : Int) ≤ 255 →
      i128Wrap (i128OfU128 v - (offset : Int)) = (v : Int) - (offset : Int)) := by
  unfold i128Wrap i128OfU128
  have hv128 : ((v : Int)) < 2 ^ 128 := by exact_mod_cast hv
  have hoffI : ((offset : Int)) < 2 ^ 63 := by exact_mod_cast hoff
  have h0v : (0 : Int) ≤ (v : Int) := Int.natCast_nonneg v
  have h0o : (0 : Int) ≤ (offset : Int) := Int.natCast_nonneg offset
  split
  · constructor
    · constructor
      · intro h
        omega
      · intro h
        omega
    · intro h1 h2
      omega
  · constructor
    · constructor
      · intro h
        omega
      · intro h
        omega
    · intro h1 h2
      omega
theorem kwikFold_eq_spec (charset : List Char) (radix offset : Nat)
    (hoff : offset < 2 ^ 63) (segs : List (List Char)) :
    ∀ acc : List Nat,
      segs.foldl (fun acc seg =>
        if seg.isEmpty then acc
        else
          let code := i128Wrap (i128OfU128 (segValU128 charset radix seg) - (offset : Int))
          if 0 ≤ code ∧ code ≤ 255 then acc ++ [code.toNat] else acc) acc =
      acc ++ (segs.filter (fun s => !s.isEmpty)).filterMap (fun seg =>
        let x : Int := (segValU128 charset radix seg : Int) - (offset : Int)
        if 0 ≤ x ∧ x ≤ 255 then some x.toNat else none) := by
  induction segs with
  | nil => intro acc; simp
  | cons s rest ih =>
    intro acc
    simp only [List.foldl_cons, List.filter_cons]
    by_cases hemp : s.isEmpty
    · rw [if_pos hemp]
      simp only [hemp, Bool.not_true, Bool.false_eq_true, if_false]
      exact ih acc
    · rw [if_neg hemp]
      simp only [Bool.not_eq_true] at hemp
      simp only [hemp, Bool.not_false, if_true, List.filterMap_cons]
      obtain ⟨hiff, heq⟩ := i128_code_spec (segValU128 charset radix s) offset
        (segValU128_lt charset radix s) hoff
      by_cases hx : 0 ≤ (segValU128 charset radix s : Int) - (offset : Int) ∧
          (segValU128 charset radix s : Int) - (offset : Int) ≤ 255
      · have hcode := hiff.mpr hx
        have hval := heq hx.1 hx.2
        simp only [if_pos hcode, if_pos hx, hval, ih, List.append_assoc, List.cons_append,
          List.nil_append]
      · have hcode := (not_iff_not.mpr hiff).mpr hx
        simp only [if_neg hcode, if_neg hx, ih]

theorem kwikDecodeBytes_eq_spec (charset : List Char) (radix offset : Nat)
    (cipher : List Char) (sep : Char) (hoff : offset < 2 ^ 63) :
    kwikDecodeBytes charset radix offset cipher sep =
      customSpecBytes charset radix offset cipher sep := by
  unfold kwikDecodeBytes customSpecBytes
  simpa using kwikFold_eq_spec charset radix offset hoff (splitOnChar sep cipher) []

/-- Claim C2: for a matched invocation with parsable parameters and
in-range radix, the custom decoder splits the ciphertext on the charset
character at the radix index, skips empty segments, values each
non-empty segment by left-to-right digit accumulation over
first-occurrence charset positions with absent characters skipped,
subtracts the offset from each segment value, keeps only results in
0..=255, and returns the kept bytes decoded as lossy UTF-8. -/
theorem C2_custom_decode_pipeline (inv : CipherInvocation)
    (hoff : inv.offsetN < 2 ^ 63) (hrad : inv.radixN < 2 ^ 32)
    (hlen : inv.radixN < inv.charset.length) :
    unpack_custom_kwik (some inv) =
      .ok (some (utf8LossyDecode (customSpecBytes inv.charset inv.radixN inv.offsetN
        inv.cipher (inv.charset.getD inv.radixN (Char.ofNat 0))))) := by
  rw [unpack_custom_kwik, if_neg (Nat.not_le.mpr hoff), if_neg (Nat.not_le.mpr hrad),
    if_pos hlen, kwikDecodeBytes_eq_spec _ _ _ _ _ hoff]

theorem C2_custom_decode_pipeline_witness :
    unpack_custom_kwik
        (some { cipher := "ba|ca".data, charset := "abc|".data, offsetN := 0, radixN := 3 }) =
      .ok (some (utf8LossyDecode (customSpecBytes "abc|".data 3 0 "ba|ca".data
        ("abc|".data.getD 3 (Char.ofNat 0))))) :=
  C2_custom_decode_pipeline
    { cipher := "ba|ca".data, charset := "abc|".data, offsetN := 0, radixN := 3 }
    (by decide) (by decide) (by decide)

/-- Claim C3: absence of a custom-cipher match is the non-error result
Ok(None), distinct from every error outcome, and whenever the custom
decoder is not present or its decoded text yields no stream URL the
embed-page orchestrator runs the generic-packer loop, reporting the
no-stream-URL failure only after every packer invocation has been tried
and has produced no URL. -/
theorem C3_decoder_chaining (p : EmbedPage)
    (h : unpack_custom_kwik p.custom = .ok none ∨
      ∃ d, unpack_custom_kwik p.custom = .ok (some d) ∧ extract_m3u8 d = none) :
    unpack_custom_kwik none = .ok none ∧
    (∀ e, (RustOutcome.ok (none : Option (List Char))) ≠ .err e) ∧
    decode_kwik_embed_page p = packerLoop p.packers ∧
    (decode_kwik_embed_page p = .err embedFailMsg →
      ∀ inv ∈ p.packers, inv.baseN < 2 ^ 64 ∧ extract_m3u8 (deanDecodeInv inv) = none) := by
  have hrun : decode_kwik_embed_page p = packerLoop p.packers := by
    rcases h with h | ⟨d, hd, hex⟩
    · rw [decode_kwik_embed_page, h]
    · rw [decode_kwik_embed_page, hd]
      simp [hex]
  refine ⟨rfl, fun e he => RustOutcome.noConfusion he, hrun, fun hfail => ?_⟩
  rw [hrun] at hfail
  exact packerLoop_err_all p.packers hfail

theorem C3_decoder_chaining_witness :
    decode_kwik_embed_page { custom := none, packers := [] } = packerLoop [] :=
  (C3_decoder_chaining { custom := none, packers := [] } (Or.inl rfl)).2.2.1
/-- Claim C10: when the custom cipher decodes successfully and the
decoded text contains no embed-path assignment but does contain a
stream URL, the entry-page decoder returns that absolute URL as the
embed path, and the embed page URL is then built by prefixing it with
the fixed origin, without any check that it is a relative path. -/
theorem C10_m3u8_as_embed_path (p : FPage) (d u : List Char)
    (h1 : unpack_custom_kwik p.custom = .ok (some d))
    (h2 : findVarUrl d = none) (h3 : extract_m3u8 d = some u) :
    decode_kwik_f_page p = .ok u ∧
      embed_page_url u = "https://kwik.cx".data ++ u := by
  constructor
  · rw [decode_kwik_f_page, h1]
    simp [h2, h3]
  · rfl

set_option maxRecDepth 40000 in
theorem C10_m3u8_as_embed_path_witness :
    decode_kwik_f_page
        { custom :=
            some
              { cipher :=
                  kwikEncode "0123456789|".data 10 0
                    ("https://a.b/c.m3u8".data.map Char.toNat),
                charset := "0123456789|".data, offsetN := 0, radixN := 10 },
          html := [] } = .ok "https://a.b/c.m3u8".data ∧
      embed_page_url "https://a.b/c.m3u8".data =
        "https://kwik.cx".data ++ "https://a.b/c.m3u8".data :=
  C10_m3u8_as_embed_path _ "https://a.b/c.m3u8".data "https://a.b/c.m3u8".data
    (by decide) (by decide) (by decide)
theorem packerLoop_err_iff (ps : List PackerInvocation) :
    packerLoop ps = .err embedFailMsg ↔
      ∀ inv ∈ ps, inv.baseN < 2 ^ 64 ∧ extract_m3u8 (deanDecodeInv inv) = none := by
  constructor
  · exact packerLoop_err_all ps
  · intro h
    induction ps with
    | nil => rfl
    | cons a rest ih =>
      obtain ⟨hlt, hex⟩ := h a (List.mem_cons_self a rest)
      rw [packerLoop, if_neg (Nat.not_le.mpr hlt), hex]
      exact ih (fun inv hmem => h inv (List.mem_cons_of_mem a hmem))

theorem packerLoop_ok_iff (ps : List PackerInvocation) (u : List Char) :
    packerLoop ps = .ok u ↔
      ∃ pre inv post, ps = pre ++ inv :: post ∧ inv.baseN < 2 ^ 64 ∧
        extract_m3u8 (deanDecodeInv inv) = some u ∧
        ∀ q ∈ pre, q.baseN < 2 ^ 64 ∧ extract_m3u8 (deanDecodeInv q) = none := by
  induction ps with
  | nil =>
    rw [packerLoop]
    constructor
    · intro h; exact absurd h (by simp)
    · rintro ⟨pre, inv, post, hdec, -⟩
      exact absurd hdec (by simp)
  | cons a rest ih =>
    by_cases hb : 2 ^ 64 ≤ a.baseN
    · rw [packerLoop, if_pos hb]
      constructor
      · intro h; exact absurd h (by simp)
      · rintro ⟨pre, inv, post, hdec, hblt, hexi, hpre⟩
        cases pre with
        | nil =>
          simp only [List.nil_append, List.cons.injEq] at hdec
          exact absurd (hdec.1 ▸ hblt) (Nat.not_lt.mpr hb)
        | cons q pre2 =>
          simp only [List.cons_append, List.cons.injEq] at hdec
          have := (hpre q (List.mem_cons_self q pre2)).1
          exact absurd (hdec.1 ▸ this) (Nat.not_lt.mpr hb)
    · rw [packerLoop, if_neg hb]
      cases hex : extract_m3u8 (deanDecodeInv a) with
      | some u0 =>
        constructor
        · intro h
          have hu : u0 = u := by cases h; rfl
          exact ⟨[], a, rest, rfl, Nat.lt_of_not_le hb, hu ▸ hex, by simp⟩
        · rintro ⟨pre, inv, post, hdec, hblt, hexi, hpre⟩
          cases pre with
          | nil =>
            simp only [List.nil_append, List.cons.injEq] at hdec
            rw [← hdec.1] at hexi
            rw [hexi] at hex
            cases hex
            rfl
          | cons q pre2 =>
            simp only [List.cons_append, List.cons.injEq] at hdec
            have hqn := (hpre q (List.mem_cons_self q pre2)).2
            rw [← hdec.1] at hqn
            rw [hqn] at hex
            cases hex
      | none =>
        rw [ih]
        constructor
        · rintro ⟨pre, inv, post, hdec, hblt, hexi, hpre⟩
          refine ⟨a :: pre, inv, post, by rw [hdec, List.cons_append], hblt, hexi, ?_⟩
          intro q hq
          rcases List.mem_cons.mp hq with hqa | hqp
          · exact hqa ▸ ⟨Nat.lt_of_not_le hb, hex⟩
          · exact hpre q hqp
        · rintro ⟨pre, inv, post, hdec, hblt, hexi, hpre⟩
          cases pre with
          | nil =>
            simp only [List.nil_append, List.cons.injEq] at hdec
            rw [← hdec.1] at hexi
            rw [hexi] at hex
            cases hex
          | cons q pre2 =>
            simp only [List.cons_append, List.cons.injEq] at hdec
            exact ⟨pre2, inv, post, hdec.2, hblt, hexi,
              fun r hr => hpre r (List.mem_cons_of_mem q hr)⟩

/-- Claim C6: on the embed page the generic-packer invocations are
decoded in document order, each decoded text is fed to the stream-URL
extractor immediately, scanning stops at the first invocation whose
decoded text yields a stream URL, and when no invocation yields one the
loop reports the no-stream-URL failure. -/
theorem C6_packer_first_match (ps : List PackerInvocation) :
    (∀ u, packerLoop ps = .ok u ↔
      ∃ pre inv post, ps = pre ++ inv :: post ∧ inv.baseN < 2 ^ 64 ∧
        extract_m3u8 (deanDecodeInv inv) = some u ∧
        ∀ q ∈ pre, q.baseN < 2 ^ 64 ∧ extract_m3u8 (deanDecodeInv q) = none) ∧
    (packerLoop ps = .err embedFailMsg ↔
      ∀ inv ∈ ps, inv.baseN < 2 ^ 64 ∧ extract_m3u8 (deanDecodeInv inv) = none) :=
  ⟨fun u => packerLoop_ok_iff ps u, packerLoop_err_iff ps⟩

theorem C6_packer_first_match_witness : packerLoop [] = .err embedFailMsg :=
  ((C6_packer_first_match []).2).mpr (by simp)
theorem firstPos_lt_length {l : List Char} {c : Char} {p : Nat}
    (h : firstPos l c = some p) : p < l.length := by
  induction l generalizing p with
  | nil => simp [firstPos] at h
  | cons x xs ih =>
    rw [firstPos] at h
    by_cases hx : x = c
    · rw [if_pos hx] at h
      cases h
      simp
    · rw [if_neg hx] at h
      cases hfp : firstPos xs c with
      | none => rw [hfp] at h; cases h
      | some q =>
        rw [hfp] at h
        cases h
        simpa using Nat.succ_lt_succ (ih hfp)

theorem deanFold_mod_congr (base : Nat) (cs : List Char) :
    ∀ x y : Nat, x % U64 = y % U64 →
      (cs.foldl (fun v c => v * base + (firstPos packerChars c).getD 0) x) % U64 =
        (cs.foldl (fun v c => v * base + (firstPos packerChars c).getD 0) y) % U64 := by
  induction cs with
  | nil => intro x y h; simpa using h
  | cons c cs ih =>
    intro x y h
    simp only [List.foldl_cons]
    apply ih
    have hm : x * base % U64 = y * base % U64 := by
      rw [Nat.mul_mod, h, ← Nat.mul_mod]
    rw [Nat.add_mod, hm, ← Nat.add_mod]

theorem deanTokenVal_eq (base : Nat) (tok : List Char) :
    ∀ v : Nat, v < U64 →
      deanTokenVal base tok v =
        if deanValidTok base tok then
          some ((tok.foldl (fun v c => v * base + (firstPos packerChars c).getD 0) v) % U64)
        else none := by
  induction tok with
  | nil =>
    intro v hv
    simp [deanTokenVal, deanValidTok, Nat.mod_eq_of_lt hv]
  | cons c cs ih =>
    intro v hv
    rw [deanTokenVal]
    cases hfp : firstPos packerChars c with
    | none =>
      have hval : deanValidTok base (c :: cs) = false := by
        simp [deanValidTok, hfp]
      rw [hval]
      simp
    | some p =>
      show (if base ≤ p then none else deanTokenVal base cs ((v * base + p) % U64)) = _
      by_cases hp : base ≤ p
      · rw [if_pos hp]
        have hval : deanValidTok base (c :: cs) = false := by
          simp only [deanValidTok, List.all_cons, hfp, Bool.and_eq_false_iff]
          left
          simpa using hp
        rw [hval]
        simp
      · rw [if_neg hp]
        have hvalid : deanValidTok base (c :: cs) = deanValidTok base cs := by
          simp only [deanValidTok, List.all_cons, hfp]
          have : decide (p < base) = true := by simpa using Nat.lt_of_not_le hp
          rw [this, Bool.true_and]
        rw [ih _ (Nat.mod_lt _ (by unfold U64; positivity)), hvalid]
        by_cases hva : deanValidTok base cs = true
        · rw [if_pos hva, if_pos hva]
          rw [List.foldl_cons, hfp]
          simp only [Option.getD_some]
          rw [deanFold_mod_congr base cs ((v * base + p) % U64) (v * base + p)
            (by rw [Nat.mod_mod])]
        · rw [if_neg hva, if_neg hva]

theorem deanReplaceToken_eq_spec (base : Nat) (keywords : List (List Char))
    (tok : List Char) :
    deanReplaceToken base keywords tok = deanSpecToken base keywords tok := by
  rw [deanReplaceToken, deanTokenVal_eq base tok 0 (by unfold U64; positivity),
    deanSpecToken]
  by_cases hv : deanValidTok base tok = true
  · rw [if_pos hv]
    have hEv : (tok.foldl (fun v c => v * base + (firstPos packerChars c).getD 0) 0) % U64 =
        deanExactVal base tok % U64 := rfl
    simp only [hEv]
    by_cases hlt : deanExactVal base tok % U64 < keywords.length
    · rw [dif_pos hlt]
      have hgd : keywords.getD (deanExactVal base tok % U64) [] =
          keywords.get ⟨deanExactVal base tok % U64, hlt⟩ := by
        simp [List.getD_eq_getElem?_getD, List.getElem?_eq_getElem hlt]
      by_cases hemp : (keywords.get ⟨deanExactVal base tok % U64, hlt⟩).isEmpty = true
      · rw [if_pos hemp, if_neg]
        intro hcond
        exact hcond.2.2 (by rw [hgd]; exact List.isEmpty_iff.mp hemp)
      · rw [if_neg hemp, if_pos]
        · exact hgd.symm
        · refine ⟨hv, hlt, ?_⟩
          rw [hgd]
          intro hnil
          exact hemp (List.isEmpty_iff.mpr hnil)
    · rw [dif_neg hlt, if_neg]
      intro hcond
      exact hlt hcond.2.1
  · rw [if_neg hv, if_neg]
    intro hcond
    exact hv hcond.1

/-- Claim C4 (amended): the packer decoder replaces a maximal
word-character token exactly when every character of the token has an
alphabet position strictly below the base, the token value reduced
modulo the 64-bit word size of the usize accumulator is a valid
dictionary index, and that dictionary entry is nonempty; every other
token and every non-token character is copied through unchanged. -/
theorem C4_token_substitution_amended (packed : List Char) (base : Nat)
    (keywords : List (List Char)) :
    unpack_dean_edwards packed base keywords = deanSpec packed base keywords ∧
    ∀ tok, deanReplaceToken base keywords tok = deanSpecToken base keywords tok := by
  constructor
  · rw [unpack_dean_edwards, deanSpec]
    congr 1
    funext tok
    exact deanReplaceToken_eq_spec base keywords tok
  · exact deanReplaceToken_eq_spec base keywords

/-- Claim C4, counterexample to the original wording: a token whose
exact base-62 value is 2 to the 64, far beyond the dictionary length,
is nevertheless replaced by the entry at index zero, because the usize
accumulator wraps; the claim as stated requires such a token to be left
unchanged. -/
theorem C4_exact_value_counterexample :
    deanValidTok 62 "lYGhA16ahyg".data = true ∧
    deanExactVal 62 "lYGhA16ahyg".data = 2 ^ 64 ∧
    ¬ deanExactVal 62 "lYGhA16ahyg".data < ([['X']] : List (List Char)).length ∧
    unpack_dean_edwards "lYGhA16ahyg".data 62 [['X']] = ['X'] ∧
    "lYGhA16ahyg".data ≠ ['X'] := by decide
theorem segfold_exact_bound (charset : List Char) (radix : Nat)
    (hr : radix ≤ 94) (hc : charset.length ≤ 95) (seg : List Char) :
    ∀ v : Nat,
      seg.foldl (fun v c =>
        match firstPos charset c with
        | some p => v * radix + p
        | none => v) v ≤ (v + 1) * 95 ^ seg.length - 1 := by
  induction seg with
  | nil => intro v; simp
  | cons c cs ih =>
    intro v
    simp only [List.foldl_cons, List.length_cons]
    have hpow : 95 ^ cs.length ≤ 95 ^ (cs.length + 1) :=
      Nat.pow_le_pow_right (by omega) (by omega)
    cases hfp : firstPos charset c with
    | none =>
      simp only [hfp]
      exact Nat.le_trans (ih v)
        (Nat.sub_le_sub_right (Nat.mul_le_mul (Nat.le_refl (v + 1)) hpow) 1)
    | some p =>
      simp only [hfp]
      have hp : p ≤ 94 := by
        have := firstPos_lt_length hfp
        omega
      have h2 : v * radix + p + 1 ≤ (v + 1) * 95 := by nlinarith
      have h5 : (v * radix + p + 1) * 95 ^ cs.length ≤ (v + 1) * 95 ^ (cs.length + 1) := by
        calc (v * radix + p + 1) * 95 ^ cs.length ≤ ((v + 1) * 95) * 95 ^ cs.length :=
              Nat.mul_le_mul h2 (Nat.le_refl _)
          _ = (v + 1) * 95 ^ (cs.length + 1) := by ring
      exact Nat.le_trans (ih (v * radix + p)) (Nat.sub_le_sub_right h5 1)

theorem segfold_u128_eq_exact (charset : List Char) (radix : Nat)
    (hr : radix ≤ 94) (hc : charset.length ≤ 95) (seg : List Char) :
    ∀ v : Nat, (v + 1) * 95 ^ seg.length ≤ U128 →
      seg.foldl (fun v c =>
        match firstPos charset c with
        | some p => (v * radix + p) % U128
        | none => v) v =
      seg.foldl (fun v c =>
        match firstPos charset c with
        | some p => v * radix + p
        | none => v) v := by
  induction seg with
  | nil => intro v _; rfl
  | cons c cs ih =>
    intro v hb
    simp only [List.foldl_cons, List.length_cons] at hb ⊢
    have hpow : 95 ^ cs.length ≤ 95 ^ (cs.length + 1) :=
      Nat.pow_le_pow_right (by omega) (by omega)
    cases hfp : firstPos charset c with
    | none =>
      simp only [hfp]
      exact ih v (Nat.le_trans (Nat.mul_le_mul (Nat.le_refl (v + 1)) hpow) hb)
    | some p =>
      simp only [hfp]
      have hp : p ≤ 94 := by
        have := firstPos_lt_length hfp
        omega
      have h2 : v * radix + p + 1 ≤ (v + 1) * 95 := by nlinarith
      have h5 : (v * radix + p + 1) * 95 ^ cs.length ≤ (v + 1) * 95 ^ (cs.length + 1) := by
        calc (v * radix + p + 1) * 95 ^ cs.length ≤ ((v + 1) * 95) * 95 ^ cs.length :=
              Nat.mul_le_mul h2 (Nat.le_refl _)
          _ = (v + 1) * 95 ^ (cs.length + 1) := by ring
      have h95 : (95 : Nat) ≤ 95 ^ (cs.length + 1) := by
        calc (95 : Nat) = 95 ^ 1 := (pow_one 95).symm
          _ ≤ 95 ^ (cs.length + 1) := Nat.pow_le_pow_right (by omega) (by omega)
      have h6 : (v + 1) * 95 ≤ (v + 1) * 95 ^ (cs.length + 1) :=
        Nat.mul_le_mul (Nat.le_refl _) h95
      have hstep : v * radix + p < U128 := by omega
      rw [Nat.mod_eq_of_lt hstep]
      exact ih (v * radix + p) (Nat.le_trans h5 hb)

/-- Claim C9 (amended): for segments of at most 19 characters, radix at
most 94, and a charset of at most 95 characters, the wrapping u128
digit accumulation agrees with the exact mathematical accumulation, so
the accumulator does not overflow. -/
theorem C9_no_overflow_amended (charset : List Char) (radix : Nat) (seg : List Char)
    (hr : radix ≤ 94) (hc : charset.length ≤ 95) (hs : seg.length ≤ 19) :
    segValU128 charset radix seg = segValExact charset radix seg := by
  unfold segValU128 segValExact
  apply segfold_u128_eq_exact charset radix hr hc seg 0
  have h1 : (95 : Nat) ^ seg.length ≤ 95 ^ 19 := Nat.pow_le_pow_right (by omega) hs
  have h2 : (95 : Nat) ^ 19 ≤ U128 := by unfold U128; decide
  simpa using Nat.le_trans h1 h2

theorem C9_no_overflow_amended_witness :
    segValU128 "01|".data 2 "10".data = segValExact "01|".data 2 "10".data :=
  C9_no_overflow_amended "01|".data 2 "10".data (by decide) (by decide) (by decide)

set_option maxRecDepth 100000 in
/-- Claim C9, counterexample to the original wording: over the
95-character charset of the printable ASCII range, at radix 94, the
20-character segment made of the character at position 93 has exact
value 94 to the 20 minus 1, which exceeds the u128 range, so the
decoder accumulator wraps and disagrees with the exact value. -/
theorem C9_overflow_counterexample :
    (List.replicate 20 (Char.ofNat 126)).length ≤ 20 ∧ (94 : Nat) ≤ 94 ∧
    segValU128 ((List.range 95).map (fun i => Char.ofNat (33 + i))) 94
        (List.replicate 20 (Char.ofNat 126)) ≠
      segValExact ((List.range 95).map (fun i => Char.ofNat (33 + i))) 94
        (List.replicate 20 (Char.ofNat 126)) := by decide
theorem getD_eq_getElem_of_lt (l : List Char) (i : Nat) (h : i < l.length) :
    l.getD i (Char.ofNat 0) = l.get ⟨i, h⟩ := by
  simp [List.getD_eq_getElem?_getD, List.getElem?_eq_getElem h]

theorem getElem_take_inj {l : List Char} {k : Nat} (hk : k < l.length)
    (hnd : (l.take (k + 1)).Nodup) {i j : Nat} (hi : i ≤ k) (hj : j ≤ k)
    (hil : i < l.length) (hjl : j < l.length)
    (heq : l.get ⟨i, hil⟩ = l.get ⟨j, hjl⟩) : i = j := by
  have hlen : (l.take (k + 1)).length = k + 1 := by
    rw [List.length_take]; omega
  have hi2 : i < (l.take (k + 1)).length := by omega
  have hj2 : j < (l.take (k + 1)).length := by omega
  have e1 : (l.take (k + 1)).get ⟨i, hi2⟩ = (l.take (k + 1)).get ⟨j, hj2⟩ := by
    rw [List.get_eq_getElem, List.get_eq_getElem, List.getElem_take l, List.getElem_take l]
    rw [List.get_eq_getElem, List.get_eq_getElem] at heq
    exact heq
  have e2 := (hnd.get_inj_iff).mp e1
  exact congrArg Fin.val e2

theorem firstPos_of_earlier_ne :
    ∀ (l : List Char) (d : Nat) (hd : d < l.length),
      (∀ i (hi : i < d), l.get ⟨i, Nat.lt_trans hi hd⟩ ≠ l.get ⟨d, hd⟩) →
      firstPos l (l.get ⟨d, hd⟩) = some d := by
  intro l
  induction l with
  | nil => intro d hd; simp at hd
  | cons x xs ih =>
    intro d hd hne
    cases d with
    | zero => simp [firstPos]
    | succ e =>
      rw [firstPos]
      have hx : x ≠ (x :: xs).get ⟨e + 1, hd⟩ := hne 0 (Nat.succ_pos e)
      rw [if_neg hx]
      have he : e < xs.length := by simpa using Nat.lt_of_succ_lt_succ hd
      have hrec : firstPos xs (xs.get ⟨e, he⟩) = some e := by
        refine ih e he ?_
        intro i hi
        exact fun hcontra => hne (i + 1) (Nat.succ_lt_succ hi) hcontra
      have hsame : (x :: xs).get ⟨e + 1, hd⟩ = xs.get ⟨e, he⟩ := rfl
      rw [hsame, hrec]
      rfl

theorem firstPos_getElem {charset : List Char} {radix : Nat}
    (hlen : radix < charset.length) (hnd : (charset.take (radix + 1)).Nodup)
    {d : Nat} (hd : d ≤ radix) :
    firstPos charset (charset.get ⟨d, Nat.lt_of_le_of_lt hd hlen⟩) = some d := by
  refine firstPos_of_earlier_ne charset d (Nat.lt_of_le_of_lt hd hlen) ?_
  intro i hi hcontra
  have : i = d := getElem_take_inj hlen hnd (by omega) hd
    (Nat.lt_trans hi (Nat.lt_of_le_of_lt hd hlen)) (Nat.lt_of_le_of_lt hd hlen) hcontra
  omega

theorem digitsBEAux_foldl (r : Nat) (hr : 2 ≤ r) :
    ∀ (fuel n v : Nat), n ≤ fuel →
      (digitsBEAux r fuel n).foldl (fun v d => v * r + d) v =
        v * r ^ (digitsBEAux r fuel n).length + n := by
  intro fuel
  induction fuel with
  | zero =>
    intro n v hn
    have : n = 0 := Nat.le_zero.mp hn
    simp [digitsBEAux, this]
  | succ fuel ih =>
    intro n v hn
    rw [digitsBEAux]
    by_cases hz : n = 0
    · simp [hz]
    · rw [if_neg hz]
      have hdiv : n / r ≤ fuel := by
        have h1 : n / r < n := Nat.div_lt_self (Nat.pos_of_ne_zero hz) (by omega)
        omega
      rw [List.foldl_append, ih (n / r) v hdiv]
      simp only [List.foldl_cons, List.foldl_nil, List.length_append, List.length_cons,
        List.length_nil]
      have : v * r ^ ((digitsBEAux r fuel (n / r)).length + (0 + 1)) =
          v * r ^ (digitsBEAux r fuel (n / r)).length * r := by ring
      rw [this]
      have hmod : r * (n / r) + n % r = n := Nat.div_add_mod n r
      ring_nf
      omega

theorem digitsBEAux_lt (r : Nat) (hr : 2 ≤ r) :
    ∀ (fuel n : Nat), ∀ d ∈ digitsBEAux r fuel n, d < r := by
  intro fuel
  induction fuel with
  | zero => intro n d hd; simp [digitsBEAux] at hd
  | succ fuel ih =>
    intro n d hd
    rw [digitsBEAux] at hd
    by_cases hz : n = 0
    · simp [hz] at hd
    · rw [if_neg hz] at hd
      rcases List.mem_append.mp hd with h | h
      · exact ih (n / r) d h
      · have : d = n % r := by simpa using h
        exact this ▸ Nat.mod_lt n (by omega)

theorem digitsBE_foldl (r n : Nat) (hr : 2 ≤ r) :
    (digitsBE r n).foldl (fun v d => v * r + d) 0 = n := by
  rw [digitsBE]
  by_cases hz : n = 0
  · simp [hz]
  · rw [if_neg hz]
    rw [digitsBEAux_foldl r hr n n 0 (Nat.le_refl n)]
    simp

theorem digitsBE_lt (r n : Nat) (hr : 2 ≤ r) : ∀ d ∈ digitsBE r n, d < r := by
  intro d hd
  rw [digitsBE] at hd
  by_cases hz : n = 0
  · rw [if_pos hz] at hd
    have : d = 0 := by simpa using hd
    omega
  · rw [if_neg hz] at hd
    exact digitsBEAux_lt r hr n n d hd

theorem digitsBE_ne_nil (r n : Nat) : digitsBE r n ≠ [] := by
  rw [digitsBE]
  by_cases hz : n = 0
  · simp [hz]
  · rw [if_neg hz]
    cases hfn : n with
    | zero => exact absurd hfn hz
    | succ m =>
      rw [digitsBEAux]
      simp

theorem segValExact_encodeByte (charset : List Char) (radix offset b : Nat)
    (h2 : 2 ≤ radix) (hlen : radix < charset.length)
    (hnd : (charset.take (radix + 1)).Nodup) :
    segValExact charset radix (encodeByte charset radix offset b) = b + offset := by
  unfold segValExact encodeByte
  rw [List.foldl_map]
  have key : ∀ (ds : List Nat) (v : Nat), (∀ d ∈ ds, d < radix) →
      ds.foldl (fun v d =>
        match firstPos charset (charset.getD d (Char.ofNat 0)) with
        | some p => v * radix + p
        | none => v) v = ds.foldl (fun v d => v * radix + d) v := by
    intro ds
    induction ds with
    | nil => intro v _; rfl
    | cons d ds ih =>
      intro v hds
      have hd : d < radix := hds d (List.mem_cons_self d ds)
      have hdl : d < charset.length := Nat.lt_trans hd hlen
      simp only [List.foldl_cons]
      rw [getD_eq_getElem_of_lt charset d hdl,
        firstPos_getElem hlen hnd (Nat.le_of_lt hd)]
      exact ih (v * radix + d) (fun e he => hds e (List.mem_cons_of_mem d he))
  rw [key (digitsBE radix (b + offset)) 0 (digitsBE_lt radix (b + offset) h2),
    digitsBE_foldl radix (b + offset) h2]

theorem segfold_exact_mono (charset : List Char) (radix : Nat) (hr : 1 ≤ radix) :
    ∀ (seg : List Char) (v : Nat),
      v ≤ seg.foldl (fun v c =>
        match firstPos charset c with
        | some p => v * radix + p
        | none => v) v := by
  intro seg
  induction seg with
  | nil => intro v; exact Nat.le_refl v
  | cons c cs ih =>
    intro v
    simp only [List.foldl_cons]
    cases hfp : firstPos charset c with
    | none => exact ih v
    | some p =>
      have hstep : v ≤ v * radix + p := by nlinarith
      exact Nat.le_trans hstep (ih (v * radix + p))

theorem segValU128_eq_exact_of_lt (charset : List Char) (radix : Nat) (seg : List Char)
    (hr : 1 ≤ radix) (hfin : segValExact charset radix seg < U128) :
    segValU128 charset radix seg = segValExact charset radix seg := by
  unfold segValExact at hfin
  unfold segValU128 segValExact
  have key : ∀ (s : List Char) (v : Nat),
      s.foldl (fun v c =>
        match firstPos charset c with
        | some p => v * radix + p
        | none => v) v < U128 →
      s.foldl (fun v c =>
        match firstPos charset c with
        | some p => (v * radix + p) % U128
        | none => v) v =
      s.foldl (fun v c =>
        match firstPos charset c with
        | some p => v * radix + p
        | none => v) v := by
    intro s
    induction s with
    | nil => intro v _; rfl
    | cons c cs ih =>
      intro v hv
      simp only [List.foldl_cons] at hv ⊢
      cases hfp : firstPos charset c with
      | none =>
        simp only [hfp] at hv ⊢
        exact ih v hv
      | some p =>
        simp only [hfp] at hv ⊢
        have hlt : v * radix + p < U128 :=
          Nat.lt_of_le_of_lt (segfold_exact_mono charset radix hr cs (v * radix + p)) hv
        rw [Nat.mod_eq_of_lt hlt]
        exact ih (v * radix + p) hv
  exact key seg 0 hfin

theorem splitOnChar_sepfree (sep : Char) :
    ∀ s : List Char, (∀ c ∈ s, c ≠ sep) → splitOnChar sep s = [s] := by
  intro s
  induction s with
  | nil => intro _; rfl
  | cons c cs ih =>
    intro h
    rw [splitOnChar, if_neg (h c (List.mem_cons_self c cs)),
      ih (fun e he => h e (List.mem_cons_of_mem c he))]

theorem splitOnChar_append (sep : Char) :
    ∀ (s rest : List Char), (∀ c ∈ s, c ≠ sep) →
      splitOnChar sep (s ++ sep :: rest) = s :: splitOnChar sep rest := by
  intro s
  induction s with
  | nil =>
    intro rest _
    rw [List.nil_append, splitOnChar, if_pos rfl]
  | cons c cs ih =>
    intro rest h
    rw [List.cons_append, splitOnChar, if_neg (h c (List.mem_cons_self c cs)),
      ih rest (fun e he => h e (List.mem_cons_of_mem c he))]

theorem splitOnChar_joinSep (sep : Char) :
    ∀ segs : List (List Char), segs ≠ [] →
      (∀ seg ∈ segs, ∀ c ∈ seg, c ≠ sep) →
      splitOnChar sep (joinSep sep segs) = segs := by
  intro segs
  induction segs with
  | nil => intro h; exact absurd rfl h
  | cons s rest ih =>
    intro _ hsf
    cases rest with
    | nil =>
      rw [joinSep]
      exact splitOnChar_sepfree sep s (hsf s (List.mem_cons_self s []))
    | cons t rest2 =>
      rw [joinSep, splitOnChar_append sep s _ (hsf s (List.mem_cons_self s _)),
        ih (List.cons_ne_nil t rest2)
          (fun seg hseg => hsf seg (List.mem_cons_of_mem s hseg))]
      exact fun hcontra => List.noConfusion hcontra

theorem encodeByte_ne_nil (charset : List Char) (radix offset b : Nat) :
    encodeByte charset radix offset b ≠ [] := by
  unfold encodeByte
  intro h
  exact digitsBE_ne_nil radix (b + offset) (List.map_eq_nil_iff.mp h)

theorem encodeByte_sepfree (charset : List Char) (radix offset b : Nat)
    (h2 : 2 ≤ radix) (hlen : radix < charset.length)
    (hnd : (charset.take (radix + 1)).Nodup) :
    ∀ c ∈ encodeByte charset radix offset b, c ≠ charset.getD radix (Char.ofNat 0) := by
  intro c hc
  unfold encodeByte at hc
  obtain ⟨d, hd, rfl⟩ := List.mem_map.mp hc
  have hdr : d < radix := digitsBE_lt radix (b + offset) h2 d hd
  have hdl : d < charset.length := Nat.lt_trans hdr hlen
  rw [getD_eq_getElem_of_lt charset d hdl, getD_eq_getElem_of_lt charset radix hlen]
  intro heq
  have := getElem_take_inj hlen hnd (Nat.le_of_lt hdr) (Nat.le_refl radix) hdl hlen heq
  omega

theorem kwikDecode_fold_encode (charset : List Char) (radix offset : Nat)
    (h2 : 2 ≤ radix) (hlen : radix < charset.length)
    (hnd : (charset.take (radix + 1)).Nodup) (hoff : offset < 2 ^ 63) :
    ∀ (bytes : List Nat) (acc : List Nat), (∀ b ∈ bytes, b ≤ 255) →
      (bytes.map (encodeByte charset radix offset)).foldl
        (fun acc seg =>
          if seg.isEmpty then acc
          else
            let code := i128Wrap (i128OfU128 (segValU128 charset radix seg) - (offset : Int))
            if 0 ≤ code ∧ code ≤ 255 then acc ++ [code.toNat] else acc) acc =
      acc ++ bytes := by
  intro bytes
  induction bytes with
  | nil => intro acc _; simp
  | cons b bs ih =>
    intro acc hb
    have hble : b ≤ 255 := hb b (List.mem_cons_self b bs)
    simp only [List.map_cons, List.foldl_cons]
    rw [if_neg (by simp only [List.isEmpty_eq_true]; exact encodeByte_ne_nil charset radix offset b)]
    have hexact : segValExact charset radix (encodeByte charset radix offset b) = b + offset :=
      segValExact_encodeByte charset radix offset b h2 hlen hnd
    have hfin : segValExact charset radix (encodeByte charset radix offset b) < U128 := by
      rw [hexact]; unfold U128; omega
    have hu : segValU128 charset radix (encodeByte charset radix offset b) = b + offset := by
      rw [segValU128_eq_exact_of_lt charset radix _ (by omega) hfin, hexact]
    rw [hu]
    obtain ⟨hiff, heqv⟩ := i128_code_spec (b + offset) offset (by omega) hoff
    have hxval : ((b + offset : Nat) : Int) - (offset : Int) = (b : Int) := by
      push_cast; ring
    have hxcond : 0 ≤ ((b + offset : Nat) : Int) - (offset : Int) ∧
        ((b + offset : Nat) : Int) - (offset : Int) ≤ 255 := by
      rw [hxval]
      exact ⟨Int.natCast_nonneg b, by exact_mod_cast hble⟩
    have hcval : i128Wrap (i128OfU128 (b + offset) - (offset : Int)) = (b : Int) := by
      rw [heqv hxcond.1 hxcond.2, hxval]
    rw [if_pos (hiff.mpr hxcond), hcval]
    have : ((b : Int)).toNat = b := Int.toNat_natCast b
    rw [this, ih (acc ++ [b]) (fun e he => hb e (List.mem_cons_of_mem b he))]
    simp

/-- Claim C5: for valid parameters (radix at least 2 and below the
charset length, the digit-and-separator region of the charset free of
duplicate characters, parsable offset and radix), encoding a byte
sequence with the forward scheme and then decoding with the custom
decoder reproduces the original bytes exactly, the decoder output being
those bytes decoded as lossy UTF-8. -/
theorem C5_encode_decode_roundtrip (charset : List Char) (radix offset : Nat)
    (bytes : List Nat) (h2 : 2 ≤ radix) (hlen : radix < charset.length)
    (hnd : (charset.take (radix + 1)).Nodup) (hoff : offset < 2 ^ 63)
    (hr32 : radix < 2 ^ 32) (hb : ∀ b ∈ bytes, b ≤ 255) :
    kwikDecodeBytes charset radix offset (kwikEncode charset radix offset bytes)
        (charset.getD radix (Char.ofNat 0)) = bytes ∧
    unpack_custom_kwik
        (some { cipher := kwikEncode charset radix offset bytes, charset := charset,
                offsetN := offset, radixN := radix }) =
      .ok (some (utf8LossyDecode bytes)) := by
  have hdec : kwikDecodeBytes charset radix offset (kwikEncode charset radix offset bytes)
      (charset.getD radix (Char.ofNat 0)) = bytes := by
    unfold kwikDecodeBytes kwikEncode
    cases bytes with
    | nil => rfl
    | cons b bs =>
      rw [splitOnChar_joinSep _ _ (by simp) (fun seg hseg => by
        obtain ⟨e, he, rfl⟩ := List.mem_map.mp hseg
        exact encodeByte_sepfree charset radix offset e h2 hlen hnd)]
      exact kwikDecode_fold_encode charset radix offset h2 hlen hnd hoff (b :: bs) [] hb
  refine ⟨hdec, ?_⟩
  simp only [unpack_custom_kwik]
  rw [if_neg (Nat.not_le.mpr hoff), if_neg (Nat.not_le.mpr hr32), if_pos hlen, hdec]

theorem C5_encode_decode_roundtrip_witness :
    kwikDecodeBytes "0123456789|".data 10 5
        (kwikEncode "0123456789|".data 10 5 [72, 0, 255])
        ("0123456789|".data.getD 10 (Char.ofNat 0)) = [72, 0, 255] ∧
    unpack_custom_kwik
        (some { cipher := kwikEncode "0123456789|".data 10 5 [72, 0, 255],
                charset := "0123456789|".data, offsetN := 5, radixN := 10 }) =
      .ok (some (utf8LossyDecode [72, 0, 255])) :=
  C5_encode_decode_roundtrip "0123456789|".data 10 5 [72, 0, 255]
    (by decide) (by decide) (by decide) (by decide) (by decide) (by decide)
/-- Claim C8, counterexample to the original wording: a matched
invocation whose offset capture does not fit an i64 makes the custom
decoder fail with a parse error; the entry-page decoder propagates that
error immediately and never runs the fallback literal-URL search,
although the raw page text contains the literal embed URL and the claim
requires the decoder to return the stripped path in this situation. -/
theorem C8_error_propagation_counterexample :
    decode_kwik_f_page
        { custom := some { cipher := "x".data, charset := "ab".data,
                           offsetN := 2 ^ 63, radixN := 0 },
          html := "zz https://kwik.cx/e/abc tail".data } = .err parseIntMsg ∧
    findKwikE "zz https://kwik.cx/e/abc tail".data =
      some "https://kwik.cx/e/abc".data ∧
    replaceOrigin "https://kwik.cx/e/abc".data = "/e/abc".data ∧
    decode_kwik_f_page
        { custom := some { cipher := "x".data, charset := "ab".data,
                           offsetN := 2 ^ 63, radixN := 0 },
          html := "zz https://kwik.cx/e/abc tail".data } ≠ .ok "/e/abc".data := by
  decide

/-- Claim C8 (amended): the entry-page resolver first attempts the
custom cipher decoder, propagating decoder errors immediately without
any fallback; on success it searches the decoded text for the relative
path assignment and, failing that, for an absolute stream URL,
returning either; only when the decoder is not present, or its decoded
text yields neither reference, does it search the raw entry page for
the literal embed URL of the fixed host and return the matched URL with
the origin stripped; only if that search also fails does it report the
no-embed-path failure. -/
theorem C8_f_page_orchestration_amended (p : FPage) :
    (∀ e, unpack_custom_kwik p.custom = .err e → decode_kwik_f_page p = .err e) ∧
    (unpack_custom_kwik p.custom = .panicked → decode_kwik_f_page p = .panicked) ∧
    (∀ d path, unpack_custom_kwik p.custom = .ok (some d) → findVarUrl d = some path →
      decode_kwik_f_page p = .ok path) ∧
    (∀ d u, unpack_custom_kwik p.custom = .ok (some d) → findVarUrl d = none →
      extract_m3u8 d = some u → decode_kwik_f_page p = .ok u) ∧
    ((unpack_custom_kwik p.custom = .ok none ∨
      ∃ d, unpack_custom_kwik p.custom = .ok (some d) ∧ findVarUrl d = none ∧
        extract_m3u8 d = none) →
      decode_kwik_f_page p = fPageFallback p.html) ∧
    (∀ m, findKwikE p.html = some m → fPageFallback p.html = .ok (replaceOrigin m)) ∧
    (findKwikE p.html = none → fPageFallback p.html = .err fPageFailMsg) := by
  refine ⟨?_, ?_, ?_, ?_, ?_, ?_, ?_⟩
  · intro e he
    rw [decode_kwik_f_page, he]
  · intro hp
    rw [decode_kwik_f_page, hp]
  · intro d path hd hpath
    rw [decode_kwik_f_page, hd]
    simp [hpath]
  · intro d u hd hnone hu
    rw [decode_kwik_f_page, hd]
    simp [hnone, hu]
  · rintro (h | ⟨d, hd, h1, h2⟩)
    · rw [decode_kwik_f_page, h]
    · rw [decode_kwik_f_page, hd]
      simp [h1, h2]
  · intro m hm
    rw [fPageFallback, hm]
  · intro hn
    rw [fPageFallback, hn]

theorem C8_f_page_orchestration_amended_witness :
    decode_kwik_f_page { custom := none, html := "zz https://kwik.cx/e/abc".data } =
      fPageFallback "zz https://kwik.cx/e/abc".data :=
  (C8_f_page_orchestration_amended
    { custom := none, html := "zz https://kwik.cx/e/abc".data }).2.2.2.2.1 (Or.inl rfl)
theorem m3u8Tail_no_quote : ∀ c ∈ m3u8Tail, isQuoteCh c = false := by decide

theorem tailMatchLen_spec :
    ∀ (xs : List Char) (n : Nat), tailMatchLen xs = some n →
      6 ≤ n ∧ n ≤ xs.length ∧ m3u8Tail <:+ xs.take n ∧
        ∀ c ∈ xs.take n, isQuoteCh c = false := by
  intro xs
  induction xs with
  | nil => intro n h; simp [tailMatchLen] at h
  | cons c cs ih =>
    intro n h
    rw [tailMatchLen] at h
    by_cases hq : isQuoteCh c
    · rw [if_pos hq] at h
      cases h
    · rw [if_neg hq] at h
      cases hrec : tailMatchLen cs with
      | some m =>
        rw [hrec] at h
        cases h
        obtain ⟨h6, hlen, hsuf, hqs⟩ := ih m hrec
        refine ⟨by omega, by simpa using Nat.succ_le_succ hlen, ?_, ?_⟩
        · rw [List.take_succ_cons]
          exact hsuf.trans (List.suffix_cons c (cs.take m))
        · intro e he
          rw [List.take_succ_cons] at he
          rcases List.mem_cons.mp he with rfl | hmem
          · simpa using hq
          · exact hqs e hmem
      | none =>
        rw [hrec] at h
        by_cases hp : m3u8Tail.isPrefixOf cs
        · rw [if_pos hp] at h
          cases h
          have hpre : m3u8Tail <+: cs := List.isPrefixOf_iff_prefix.mp hp
          have htake : m3u8Tail = cs.take 5 := List.prefix_iff_eq_take.mp hpre
          have hlen5 : 5 ≤ cs.length := by
            have := hpre.length_le
            simpa using this
          refine ⟨Nat.le_refl 6, by simpa using Nat.succ_le_succ hlen5, ?_, ?_⟩
          · rw [show (6 : Nat) = 5 + 1 from rfl, List.take_succ_cons, ← htake]
            exact List.suffix_cons c m3u8Tail
          · intro e he
            rw [show (6 : Nat) = 5 + 1 from rfl, List.take_succ_cons, ← htake] at he
            rcases List.mem_cons.mp he with rfl | hmem
            · simpa using hq
            · exact m3u8Tail_no_quote e hmem
        · rw [if_neg hp] at h
          cases h

theorem tailMatchLen_isSome :
    ∀ (w xs : List Char), w <+: xs → 6 ≤ w.length → m3u8Tail <:+ w →
      (∀ c ∈ w, isQuoteCh c = false) → (tailMatchLen xs).isSome = true := by
  intro w
  induction w with
  | nil => intro xs _ hlen; simp at hlen
  | cons c w2 ih =>
    intro xs hpre hlen hsuf hq
    cases xs with
    | nil =>
      have := hpre.length_le
      simp at this
    | cons x xs2 =>
      obtain ⟨hcx, hpre2⟩ := List.cons_prefix_cons.mp hpre
      have hqc : isQuoteCh x = false := hcx ▸ hq c (List.mem_cons_self c w2)
      rw [tailMatchLen, if_neg (by rw [hqc]; exact Bool.false_ne_true)]
      by_cases h7 : 6 ≤ w2.length
      · have hsuf2 : m3u8Tail <:+ w2 := by
          rcases List.suffix_cons_iff.mp hsuf with heq | hs
          · have : m3u8Tail.length = w2.length + 1 := by rw [heq]; simp
            simp [m3u8Tail] at this
            omega
          · exact hs
        have := ih xs2 hpre2 h7 hsuf2 (fun e he => hq e (List.mem_cons_of_mem c he))
        obtain ⟨m, hm⟩ := Option.isSome_iff_exists.mp this
        rw [hm]
        rfl
      · have hw2 : w2.length = 5 := by
          simp at hlen
          omega
        have hw2eq : w2 = m3u8Tail := by
          rcases List.suffix_cons_iff.mp hsuf with heq | hs
          · have : m3u8Tail.length = w2.length + 1 := by rw [heq]; simp
            simp [m3u8Tail] at this
            omega
          · exact (hs.eq_of_length (by simp [m3u8Tail, hw2])).symm
        have hp : m3u8Tail.isPrefixOf xs2 = true :=
          List.isPrefixOf_iff_prefix.mpr (hw2eq ▸ hpre2)
        cases hrec : tailMatchLen xs2 with
        | some m => rfl
        | none => rw [if_pos hp]; rfl

theorem http7_no_quote : ∀ c ∈ "http://".data, isQuoteCh c = false := by decide

theorem https8_no_quote : ∀ c ∈ "https://".data, isQuoteCh c = false := by decide

theorem httpLen_spec (cs : List Char) (s : Nat) (h : httpLen cs = some s) :
    (s = 7 ∧ "http://".data <+: cs) ∨ (s = 8 ∧ "https://".data <+: cs) := by
  rw [httpLen] at h
  by_cases h8 : List.isPrefixOf "https://".data cs
  · rw [if_pos h8] at h
    cases h
    exact Or.inr ⟨rfl, List.isPrefixOf_iff_prefix.mp h8⟩
  · rw [if_neg h8] at h
    by_cases h7 : List.isPrefixOf "http://".data cs
    · rw [if_pos h7] at h
      cases h
      exact Or.inl ⟨rfl, List.isPrefixOf_iff_prefix.mp h7⟩
    · rw [if_neg h7] at h
      cases h

theorem httpLen_of_http {cs : List Char} (h : "http://".data <+: cs) :
    httpLen cs = some 7 := by
  rw [httpLen]
  have hnot : ¬ List.isPrefixOf "https://".data cs = true := by
    intro h8
    have h8p := List.isPrefixOf_iff_prefix.mp h8
    have : "http://".data <+: "https://".data :=
      List.prefix_of_prefix_length_le h h8p (by decide)
    exact absurd this (by decide)
  rw [if_neg hnot, if_pos (List.isPrefixOf_iff_prefix.mpr h)]

theorem httpLen_of_https {cs : List Char} (h : "https://".data <+: cs) :
    httpLen cs = some 8 := by
  rw [httpLen, if_pos (List.isPrefixOf_iff_prefix.mpr h)]

theorem suffix_drop_of_suffix {s l : List Char} (k : Nat) (h : s <:+ l)
    (hk : k + s.length ≤ l.length) : s <:+ l.drop k := by
  obtain ⟨pre, rfl⟩ := h
  have hkp : k ≤ pre.length := by
    rw [List.length_append] at hk
    omega
  rw [List.drop_append_of_le_length hkp]
  exact ⟨pre.drop k, rfl⟩

theorem prefix_drop_of_prefix {u cs : List Char} (k : Nat) (h : u <+: cs)
    (hk : k ≤ u.length) : u.drop k <+: cs.drop k := by
  obtain ⟨t, rfl⟩ := h
  rw [List.drop_append_of_le_length hk]
  exact ⟨t, rfl⟩

theorem m3u8MatchAt_spec (cs : List Char) (n : Nat) (h : m3u8MatchAt cs = some n) :
    specM3u8 (cs.take n) ∧ n ≤ cs.length := by
  rw [m3u8MatchAt] at h
  cases hhl : httpLen cs with
  | none => simp only [hhl] at h; cases h
  | some s =>
    simp only [hhl] at h
    cases htl : tailMatchLen (cs.drop s) with
    | none => simp only [htl] at h; cases h
    | some m =>
      simp only [htl, Option.some.injEq] at h
      subst h
      obtain ⟨h6, hmlen, hsuf, hqs⟩ := tailMatchLen_spec (cs.drop s) m htl
      rw [List.length_drop] at hmlen
      have hdecomp : cs.take (s + m) = cs.take s ++ (cs.drop s).take m := List.take_add cs s m
      rcases httpLen_spec cs s hhl with ⟨hs7, hpre⟩ | ⟨hs8, hpre⟩
      · subst hs7
        have hslen : 7 ≤ cs.length := by
          have := hpre.length_le
          simpa using this
        have hnle : 7 + m ≤ cs.length := by omega
        have htks : cs.take 7 = "http://".data := (List.prefix_iff_eq_take.mp hpre).symm
        have hulen : (cs.take (7 + m)).length = 7 + m := by
          rw [List.length_take]
          omega
        refine ⟨⟨Or.inl ⟨?_, ?_⟩, ?_, ?_⟩, hnle⟩
        · rw [List.take_take, Nat.min_eq_left (by omega), htks]
        · omega
        · rw [hdecomp]
          exact hsuf.trans (List.suffix_append (cs.take 7) ((cs.drop 7).take m))
        · intro c hc
          rw [hdecomp] at hc
          rcases List.mem_append.mp hc with hl | hr
          · exact http7_no_quote c (htks ▸ hl)
          · exact hqs c hr
      · subst hs8
        have hslen : 8 ≤ cs.length := by
          have := hpre.length_le
          simpa using this
        have hnle : 8 + m ≤ cs.length := by omega
        have htks : cs.take 8 = "https://".data := (List.prefix_iff_eq_take.mp hpre).symm
        have hulen : (cs.take (8 + m)).length = 8 + m := by
          rw [List.length_take]
          omega
        refine ⟨⟨Or.inr ⟨?_, ?_⟩, ?_, ?_⟩, hnle⟩
        · rw [List.take_take, Nat.min_eq_left (by omega), htks]
        · omega
        · rw [hdecomp]
          exact hsuf.trans (List.suffix_append (cs.take 8) ((cs.drop 8).take m))
        · intro c hc
          rw [hdecomp] at hc
          rcases List.mem_append.mp hc with hl | hr
          · exact https8_no_quote c (htks ▸ hl)
          · exact hqs c hr

theorem specM3u8_matchAt_isSome {u cs : List Char} (hspec : specM3u8 u)
    (hpre : u <+: cs) : (m3u8MatchAt cs).isSome = true := by
  obtain ⟨hscheme, hsuf, hq⟩ := hspec
  rcases hscheme with ⟨htake, hlen⟩ | ⟨htake, hlen⟩
  · have hpat : "http://".data <+: u := by
      rw [List.prefix_iff_eq_take]
      exact htake.symm
    rw [m3u8MatchAt, httpLen_of_http (hpat.trans hpre)]
    show (match tailMatchLen (cs.drop 7) with
      | some n => some (7 + n)
      | none => none).isSome = true
    have hw : u.drop 7 <+: cs.drop 7 := prefix_drop_of_prefix 7 hpre (by omega)
    have hwlen : 6 ≤ (u.drop 7).length := by
      rw [List.length_drop]
      omega
    have hwsuf : m3u8Tail <:+ u.drop 7 := by
      refine suffix_drop_of_suffix 7 hsuf ?_
      simp only [m3u8Tail, List.length_cons, List.length_nil]
      omega
    have hwq : ∀ c ∈ u.drop 7, isQuoteCh c = false :=
      fun c hc => hq c (List.mem_of_mem_drop hc)
    obtain ⟨m, hm⟩ := Option.isSome_iff_exists.mp
      (tailMatchLen_isSome (u.drop 7) (cs.drop 7) hw hwlen hwsuf hwq)
    rw [hm]
    rfl
  · have hpat : "https://".data <+: u := by
      rw [List.prefix_iff_eq_take]
      exact htake.symm
    rw [m3u8MatchAt, httpLen_of_https (hpat.trans hpre)]
    show (match tailMatchLen (cs.drop 8) with
      | some n => some (8 + n)
      | none => none).isSome = true
    have hw : u.drop 8 <+: cs.drop 8 := prefix_drop_of_prefix 8 hpre (by omega)
    have hwlen : 6 ≤ (u.drop 8).length := by
      rw [List.length_drop]
      omega
    have hwsuf : m3u8Tail <:+ u.drop 8 := by
      refine suffix_drop_of_suffix 8 hsuf ?_
      simp only [m3u8Tail, List.length_cons, List.length_nil]
      omega
    have hwq : ∀ c ∈ u.drop 8, isQuoteCh c = false :=
      fun c hc => hq c (List.mem_of_mem_drop hc)
    obtain ⟨m, hm⟩ := Option.isSome_iff_exists.mp
      (tailMatchLen_isSome (u.drop 8) (cs.drop 8) hw hwlen hwsuf hwq)
    rw [hm]
    rfl

theorem m3u8MatchAt_none_iff (cs : List Char) :
    m3u8MatchAt cs = none ↔ ∀ u, specM3u8 u → ¬ u <+: cs := by
  constructor
  · intro hnone u hspec hpre
    have := specM3u8_matchAt_isSome hspec hpre
    rw [hnone] at this
    simp at this
  · intro hall
    cases hm : m3u8MatchAt cs with
    | none => rfl
    | some n =>
      obtain ⟨hspec, hle⟩ := m3u8MatchAt_spec cs n hm
      exact absurd (List.take_prefix n cs) (hall _ hspec)

theorem extract_m3u8_none_iff (t : List Char) :
    extract_m3u8 t = none ↔ ∀ (i : Nat) (u : List Char), specM3u8 u → ¬ u <+: t.drop i := by
  induction t with
  | nil =>
    simp only [extract_m3u8, List.drop_nil, true_iff]
    intro i u hspec hpre
    have hu : u = [] := List.prefix_nil.mp hpre
    subst hu
    exact absurd hspec (by decide)
  | cons c cs ih =>
    rw [extract_m3u8]
    cases hm : m3u8MatchAt (c :: cs) with
    | some n =>
      simp only
      obtain ⟨hspec, hle⟩ := m3u8MatchAt_spec _ n hm
      constructor
      · intro hcontra
        exact absurd hcontra (by simp)
      · intro hall
        have hat := hall 0 _ hspec
        rw [List.drop_zero] at hat
        exact absurd (List.take_prefix n (c :: cs)) hat
    | none =>
      simp only
      rw [ih]
      have hnone := (m3u8MatchAt_none_iff (c :: cs)).mp hm
      constructor
      · intro h i u hspec
        cases i with
        | zero =>
          rw [List.drop_zero]
          exact hnone u hspec
        | succ j =>
          rw [List.drop_succ_cons]
          exact h j u hspec
      · intro h i u hspec
        have := h (i + 1) u hspec
        rw [List.drop_succ_cons] at this
        exact this

theorem extract_m3u8_some_spec (t : List Char) :
    ∀ u, extract_m3u8 t = some u →
      specM3u8 u ∧ ∃ i, u <+: t.drop i ∧
        ∀ j, j < i → ∀ v, specM3u8 v → ¬ v <+: t.drop j := by
  induction t with
  | nil => intro u h; simp [extract_m3u8] at h
  | cons c cs ih =>
    intro u h
    rw [extract_m3u8] at h
    cases hm : m3u8MatchAt (c :: cs) with
    | some n =>
      simp only [hm, Option.some.injEq] at h
      subst h
      obtain ⟨hspec, hle⟩ := m3u8MatchAt_spec _ n hm
      exact ⟨hspec, 0, by rw [List.drop_zero]; exact List.take_prefix n (c :: cs),
        fun j hj => absurd hj (Nat.not_lt_zero j)⟩
    | none =>
      simp only [hm] at h
      obtain ⟨hspec, i, hpre, hmin⟩ := ih u h
      refine ⟨hspec, i + 1, by rw [List.drop_succ_cons]; exact hpre, ?_⟩
      intro j hj v hv
      cases j with
      | zero =>
        rw [List.drop_zero]
        exact (m3u8MatchAt_none_iff (c :: cs)).mp hm v hv
      | succ k =>
        rw [List.drop_succ_cons]
        exact hmin k (Nat.lt_of_succ_lt_succ hj) v hv

/-- Claim C7 (amended): the stream-URL extractor returns nothing
exactly when no substring of the text starts with http or https
followed by colon-slash-slash, has at least one character before the
terminal literal .m3u8 suffix, and is free of quote characters; when it
returns a URL, that URL is such a substring, returned verbatim, taken
at the leftmost position where any such substring begins; absence is a
None result, not an error. -/
theorem C7_extract_m3u8_amended (t : List Char) :
    (extract_m3u8 t = none ↔ ∀ (i : Nat) (u : List Char), specM3u8 u → ¬ u <+: t.drop i) ∧
    (∀ u, extract_m3u8 t = some u →
      specM3u8 u ∧ ∃ i, u <+: t.drop i ∧
        ∀ j, j < i → ∀ v, specM3u8 v → ¬ v <+: t.drop j) :=
  ⟨extract_m3u8_none_iff t, extract_m3u8_some_spec t⟩

theorem C7_extract_m3u8_amended_witness :
    specM3u8 "http://a.m3u8".data :=
  ((C7_extract_m3u8_amended " 'http://a.m3u8' x".data).2 "http://a.m3u8".data
    (by decide)).1

/-- Claim C7, counterexample to the original wording: the text
http://.m3u8 is itself a substring that starts with the http scheme,
ends in the literal .m3u8 suffix and contains no quote character, so
the claim requires it to be returned; but the regex demands at least
one character between the scheme and the suffix, and the extractor
returns nothing on this text. -/
theorem C7_empty_authority_counterexample :
    List.take 7 "http://.m3u8".data = "http://".data ∧
    m3u8Tail <:+ "http://.m3u8".data ∧
    (∀ c ∈ "http://.m3u8".data, isQuoteCh c = false) ∧
    extract_m3u8 "http://.m3u8".data = none := by decide
